import Mathlib

/-! ## ai-pdf-qa: the document-ingestion pipeline

A shallow embedding of `src/components/PDFProcessor.js` (page filter, chunker,
relevance ranker, ingestion loop) and of the prompt construction in
`src/components/ChatInterface.js`, followed by the properties settled about them.

Conventions of the embedding.

* A JavaScript string is a list of Unicode characters; `length` counts UTF-16
  code units (`jsLength`).  Strings with unpaired surrogates are outside the model.
* What the JavaScript runtime supplies and the repository does not contain
  (Unicode lower-casing, the regular-expression engine) is a parameter, `Runtime`.
* The one floating-point operation of the page filter, `words.length * 0.7`, is
  modelled exactly as a binary64 multiplication (`timesPoint7`).
-/

namespace PdfQa

/-! ## Strings -/

/-- A JavaScript string, as the list of its characters. -/
abbrev JSString := List Char

/-- Number of UTF-16 code units of a character. -/
def codeUnits (c : Char) : Nat := if c.toNat < 65536 then 1 else 2

/-- The value of `s.length`: the number of UTF-16 code units. -/
def jsLength : JSString → Nat
  | [] => 0
  | c :: cs => codeUnits c + jsLength cs

/-- The characters matched by `\s` and removed by `trim()`: ECMAScript WhiteSpace and
LineTerminator. -/
def isWhiteSpace (c : Char) : Bool :=
  let n := c.toNat
  (9 ≤ n && n ≤ 13) || n == 32 || n == 160 || n == 5760 || (8192 ≤ n && n ≤ 8202) ||
    n == 8232 || n == 8233 || n == 8239 || n == 8287 || n == 12288 || n == 65279

/-- The method `String.prototype.trim`. -/
def trim (s : JSString) : JSString :=
  ((s.dropWhile isWhiteSpace).reverse.dropWhile isWhiteSpace).reverse

/-- The call `s.split(/\s+/)`: the pieces between maximal runs of whitespace.  A leading or
trailing run leaves an empty piece at that end, and the empty string gives one empty piece. -/
def splitWhitespace : JSString → List JSString
  | [] => [[]]
  | c :: cs =>
    if isWhiteSpace c then
      match cs with
      | [] => [[], []]
      | d :: _ => if isWhiteSpace d then splitWhitespace cs else [] :: splitWhitespace cs
    else
      match splitWhitespace cs with
      | [] => [[c]]
      | w :: ws => (c :: w) :: ws

/-- The call `parts.join(sep)`. -/
def joinWith (sep : JSString) : List JSString → JSString
  | [] => []
  | [w] => w
  | w :: v :: ws => w ++ sep ++ joinWith sep (v :: ws)

/-- The call `xs.slice(i, j)` for non-negative `i` and `j`. -/
def slice {α : Type} (xs : List α) (i j : Nat) : List α := (xs.drop i).take (j - i)

/-- The call `s.includes(pat)`: `pat` occurs in `s` as a contiguous substring. -/
def includes : JSString → JSString → Bool
  | [], pat => pat.isEmpty
  | c :: cs, pat => pat.isPrefixOf (c :: cs) || includes cs pat

/-- Decimal rendering of a non-negative integer in a template literal. -/
def numberToString (n : Nat) : JSString := (Nat.repr n).toList

/-! ## What the JavaScript runtime supplies -/

/-- The built-ins the pipeline calls and the repository does not define. -/
structure Runtime where
  /-- The method `String.prototype.toLowerCase`. -/
  toLowerCase : JSString → JSString
  /-- For `matchCount pattern subject`: the number of entries of
  `subject.match(new RegExp(pattern, 'gi'))` (zero when the result is `null`), or `none`
  when the `RegExp` constructor throws a `SyntaxError`. -/
  matchCount : JSString → JSString → Option Nat

/-- Characters with a special meaning in a regular-expression pattern. -/
def isRegexMeta (c : Char) : Bool :=
  c ∈ ['\\', '^', '$', '.', '*', '+', '?', '(', ')', '[', ']', '\x7b', '\x7d', '|']

/-- Non-overlapping occurrences of a non-empty literal `pat`, scanning left to right; the
second argument is the number of characters still covered by the previous match. -/
def countLiteral (pat : JSString) : JSString → Nat → Nat
  | [], _ => 0
  | _ :: cs, skip + 1 => countLiteral pat cs skip
  | c :: cs, 0 =>
    if pat.isPrefixOf (c :: cs) then 1 + countLiteral pat cs (pat.length - 1)
    else countLiteral pat cs 0

/-- A runtime for ASCII text and metacharacter-free patterns: there a global match finds the
non-overlapping literal occurrences, and the empty pattern matches once at every position.
Patterns with a metacharacter are not interpreted by this runtime and are reported as
failures; for a pattern that is not a valid regular expression, such as `(`, failure is also
what the engine does. -/
def asciiRuntime : Runtime where
  toLowerCase := fun s => s.map Char.toLower
  matchCount := fun pattern subject =>
    if pattern.any isRegexMeta then none
    else if pattern.isEmpty then some (jsLength subject + 1)
    else some (countLiteral (pattern.map Char.toLower) (subject.map Char.toLower) 0)

/-! ## The page filter -/

/-- Significand of the binary64 number nearest to `0.7`, which is `mant07 / 2^53`. -/
def mant07 : Nat := 6305039478318694

/-- Number of binary digits of `p`, computed in at most `fuel` halvings. -/
def bitLengthAux : Nat → Nat → Nat
  | 0, _ => 0
  | fuel + 1, p => if p = 0 then 0 else 1 + bitLengthAux fuel (p / 2)

/-- Number of binary digits of `p` (zero for `0`). -/
def bitLength (p : Nat) : Nat := bitLengthAux p p

/-- Round a positive integer to 53 significant bits, to nearest, ties to even. -/
def roundTo53 (p : Nat) : Nat :=
  let bits := bitLength p
  if bits ≤ 53 then p
  else
    let sh := bits - 53
    let q := p / 2 ^ sh
    let r := p % 2 ^ sh
    let half := 2 ^ (sh - 1)
    if half < r || (r == half && q % 2 == 1) then (q + 1) * 2 ^ sh else q * 2 ^ sh

/-- The binary64 product `n * 0.7`, as a numerator over `2^53` (no overflow or underflow
occurs for an array length `n`). -/
def timesPoint7 (n : Nat) : Nat := roundTo53 (n * mant07)

/-- The comparison `shortWords > words.length * 0.7`. -/
def exceedsSeventyPercent (shortWords total : Nat) : Bool :=
  decide (timesPoint7 total < shortWords * 2 ^ 53)

/-- The markers tested by `isHeaderPage`, in source order. -/
def headerMarkers : List JSString :=
  ["project gutenberg".toList, "copyright".toList, "table of contents".toList,
   "contents".toList, "introduction".toList, "preface".toList, "chapter i".toList,
   "book i".toList]

/-- The method `isHeaderPage(text, pageNum)`. -/
def isHeaderPage (rt : Runtime) (text : JSString) (pageNum : Nat) : Bool :=
  let lowerText := rt.toLowerCase text
  if pageNum ≤ 5 then true
  else if includes lowerText "project gutenberg".toList ||
      includes lowerText "copyright".toList ||
      includes lowerText "table of contents".toList ||
      includes lowerText "contents".toList ||
      includes lowerText "introduction".toList ||
      includes lowerText "preface".toList ||
      includes lowerText "chapter i".toList ||
      includes lowerText "book i".toList then true
  else if jsLength text < 200 then true
  else
    let words := splitWhitespace text
    let shortWords := (words.filter (fun w => jsLength w ≤ 3)).length
    if exceedsSeventyPercent shortWords words.length then true
    else false

/-! ## The chunker -/

/-- A chunk of page text. -/
structure Chunk where
  text : JSString
  page : Nat
  deriving DecidableEq

/-- The field `chunkSize` set by the constructor. -/
def chunkSize : Nat := 1000

/-- The field `overlap` set by the constructor. -/
def overlap : Nat := 100

/-- The loop `for (let i = 0; i < words.length; i += chunkSize - overlap)` of
`splitTextIntoChunks`, from index `i`, as the chunks it pushes.  The first argument bounds
the number of iterations; `chunkLoop_fuel` shows that `words.length` iterations are never
used up. -/
def chunkLoop (words : List JSString) (pageNum : Nat) : Nat → Nat → List Chunk
  | 0, _ => []
  | fuel + 1, i =>
    if i < words.length then
      let chunkWords := slice words i (i + chunkSize)
      let chunkText := joinWith [' '] chunkWords
      let later := chunkLoop words pageNum fuel (i + (chunkSize - overlap))
      if trim chunkText ≠ [] then { text := chunkText, page := pageNum } :: later
      else later
    else []

/-- The method `splitTextIntoChunks(text, pageNum)`. -/
def splitTextIntoChunks (text : JSString) (pageNum : Nat) : List Chunk :=
  let words := splitWhitespace text
  if words.length < chunkSize then [{ text := trim text, page := pageNum }]
  else chunkLoop words pageNum words.length 0

/-! ## The ingestion loop -/

deriving instance DecidableEq for Except

/-- What `pdf.getPage(n)` followed by `page.getTextContent()` gives for one page: the `str`
fields of the text items, or the message of the error raised. -/
abbrev PageSource := Except JSString (List JSString)

/-- An opened document: its pages in order; `numPages` is their number. -/
structure PDFDocument where
  pages : List PageSource

/-- The property `pdf.numPages`. -/
def PDFDocument.numPages (pdf : PDFDocument) : Nat := pdf.pages.length

/-- The uploaded file: the document that `getDocument` opens, or the message of the error
raised by `file.arrayBuffer()` or `getDocument`. -/
abbrev PDFFile := Except JSString PDFDocument

/-- The local variables that `processPDF` updates in its loop. -/
structure Counters where
  textChunks : List Chunk
  totalTextLength : Nat
  contentPages : Nat
  skippedPages : Nat
  deriving DecidableEq

/-- The values of the local variables before the loop. -/
def Counters.initial : Counters :=
  { textChunks := [], totalTextLength := 0, contentPages := 0, skippedPages := 0 }

/-- How the page loop was left: the counters, the value of `pageNum` at that moment, and
whether it was left through the `break` of the 30-content-page limit. -/
structure LoopExit where
  counters : Counters
  pageNum : Nat
  stoppedByCap : Bool
  deriving DecidableEq

/-- Number of pages whose body the loop has run when it is left. -/
def LoopExit.pagesVisited (e : LoopExit) : Nat :=
  if e.stoppedByCap then e.pageNum else e.pageNum - 1

/-- The loop `for (let pageNum = 1; pageNum <= pdf.numPages; pageNum++)` of `processPDF`,
entered at `pageNum` with the pages from `pageNum` on still to visit.  An error raised while
a page is read leaves the loop with that error. -/
def pageLoop (rt : Runtime) : List PageSource → Nat → Counters → Except JSString LoopExit
  | [], pageNum, st => .ok { counters := st, pageNum := pageNum, stoppedByCap := false }
  | .error msg :: _, _, _ => .error msg
  | .ok items :: later, pageNum, st =>
    let pageText := joinWith [' '] items
    let trimmedText := trim pageText
    let textLength := jsLength trimmedText
    if isHeaderPage rt trimmedText pageNum then
      pageLoop rt later (pageNum + 1) { st with skippedPages := st.skippedPages + 1 }
    else if st.contentPages < 2 && textLength < 500 then
      pageLoop rt later (pageNum + 1) { st with skippedPages := st.skippedPages + 1 }
    else
      let st' : Counters :=
        { textChunks := st.textChunks ++ splitTextIntoChunks trimmedText pageNum
          totalTextLength := st.totalTextLength + textLength
          contentPages := st.contentPages + 1
          skippedPages := st.skippedPages }
      if st'.contentPages ≥ 30 then
        .ok { counters := st', pageNum := pageNum, stoppedByCap := true }
      else pageLoop rt later (pageNum + 1) st'

/-- The object returned by `processPDF`. -/
structure DocumentIndex where
  totalPages : Nat
  contentPages : Nat
  skippedPages : Nat
  totalChunks : Nat
  textChunks : List Chunk
  totalTextLength : Nat
  deriving DecidableEq

/-- The object literal returned after the loop. -/
def makeIndex (pdf : PDFDocument) (st : Counters) : DocumentIndex :=
  { totalPages := pdf.numPages
    contentPages := st.contentPages
    skippedPages := st.skippedPages
    totalChunks := st.textChunks.length
    textChunks := st.textChunks
    totalTextLength := st.totalTextLength }

/-- The text put before the message of a caught error. -/
def failurePreamble : JSString := "Failed to process PDF: ".toList

/-- The method `processPDF(file)`: every error raised inside the `try` block is caught and
raised again with `failurePreamble` in front of its message. -/
def processPDF (rt : Runtime) (file : PDFFile) : Except JSString DocumentIndex :=
  match file with
  | .error msg => .error (failurePreamble ++ msg)
  | .ok pdf =>
    match pageLoop rt pdf.pages 1 Counters.initial with
    | .error msg => .error (failurePreamble ++ msg)
    | .ok e => .ok (makeIndex pdf e.counters)

/-! ## The relevance ranker -/

/-- An entry of the array built by `searchText`. -/
structure SearchResult where
  chunk : Chunk
  index : Nat
  relevance : ℚ
  deriving DecidableEq

/-- The `forEach` over the query words in `calculateRelevance`: every match adds 10 to the
score; `none` when a word is not a valid pattern. -/
def scoreWords (rt : Runtime) (textLower : JSString) : List JSString → Nat → Option Nat
  | [], score => some score
  | word :: later, score =>
    match rt.matchCount word textLower with
    | none => none
    | some n => scoreWords rt textLower later (score + n * 10)

/-- The method `calculateRelevance(text, query)`, with the score as an exact rational. -/
def calculateRelevance (rt : Runtime) (text query : JSString) : Option ℚ :=
  let textLower := rt.toLowerCase text
  let queryWords := splitWhitespace (rt.toLowerCase query)
  match scoreWords rt textLower queryWords 0 with
  | none => none
  | some score => some ((score : ℚ) + min ((jsLength text : ℚ) / 100) 50)

/-- The `forEach` of `searchText`: the chunks whose lower-cased text includes the
lower-cased query, each with its index and relevance. -/
def collectResults (rt : Runtime) (query : JSString) :
    List Chunk → Nat → Option (List SearchResult)
  | [], _ => some []
  | chunk :: later, index =>
    if includes (rt.toLowerCase chunk.text) (rt.toLowerCase query) then
      match calculateRelevance rt chunk.text query with
      | none => none
      | some r =>
        match collectResults rt query later (index + 1) with
        | none => none
        | some found => some ({ chunk := chunk, index := index, relevance := r } :: found)
    else collectResults rt query later (index + 1)

/-- The call `results.sort((a, b) => b.relevance - a.relevance)`: a stable sort by descending
relevance. -/
def sortByRelevance (results : List SearchResult) : List SearchResult :=
  results.insertionSort (fun a b => b.relevance ≤ a.relevance)

/-- The method `searchText(textChunks, query)`; `none` when it raises. -/
def searchText (rt : Runtime) (textChunks : List Chunk) (query : JSString) :
    Option (List SearchResult) :=
  match collectResults rt query textChunks 0 with
  | none => none
  | some results => some (slice (sortByRelevance results) 0 5)

/-! ## The prompt of `generateAIResponse` -/

/-- The chunks chosen for the context: `documentInfo.textChunks.slice(0, 5)`. -/
def relevantChunks (info : DocumentIndex) : List Chunk := slice info.textChunks 0 5

/-- The template literal mapped over the chosen chunks, `index` being the position in
`relevantChunks`. -/
def chunkLabel (chunk : Chunk) (index : Nat) : JSString :=
  "[Page ".toList ++ numberToString chunk.page ++ ", Chunk ".toList ++
    numberToString (index + 1) ++ "]: ".toList ++ chunk.text

/-- The call `xs.map((x, index) => f(x, index))`, with `index` counted from `start`. -/
def mapWithIndex {α β : Type} (f : α → Nat → β) : List α → Nat → List β
  | [], _ => []
  | x :: xs, start => f x start :: mapWithIndex f xs (start + 1)

/-- The variable `contextText`; `documentInfo` is `none` before a document is processed. -/
def contextText (documentInfo : Option DocumentIndex) : JSString :=
  match documentInfo with
  | none => []
  | some info => joinWith "\n\n".toList (mapWithIndex chunkLabel (relevantChunks info) 0)

/-- The opening of the prompt. -/
def promptOpening : JSString :=
  ("You are a helpful AI assistant helping users understand PDF documents. \n\n" ++
    "Context from the uploaded PDF:\n").toList

/-- The text used in place of an empty context. -/
def contextFallback : JSString :=
  "PDF content is being processed. Please ask general questions about the document.".toList

/-- The text between the context and the question. -/
def questionHeading : JSString := "\n\nUser Question: ".toList

/-- The closing of the prompt. -/
def promptClosing : JSString :=
  ("\n\nPlease provide a helpful, informative response based on the PDF context above. " ++
    "If the question is about specific content in the PDF, use the context to answer it " ++
    "clearly. If it\x27s a general question about the document, provide relevant insights " ++
    "based on what you can see.\n\nAnswer:").toList

/-- The variable `prompt` of `generateAIResponse(question)`. -/
def buildPrompt (documentInfo : Option DocumentIndex) (question : JSString) : JSString :=
  let context := contextText documentInfo
  promptOpening ++ (if context ≠ [] then context else contextFallback) ++
    questionHeading ++ question ++ promptClosing

/-! ## Auxiliary definitions used in the statements and proofs -/

/-- The trimmed text of a page, as computed at the top of the loop body. -/
def pageTextOf (items : List JSString) : JSString := trim (joinWith [' '] items)

/-- The two tests of the loop body that skip a page. -/
def skipsPage (rt : Runtime) (st : Counters) (items : List JSString) (pageNum : Nat) : Bool :=
  isHeaderPage rt (pageTextOf items) pageNum ||
    (decide (st.contentPages < 2) && decide (jsLength (pageTextOf items) < 500))

/-- The counters after a page is skipped. -/
def skipPage (st : Counters) : Counters := { st with skippedPages := st.skippedPages + 1 }

/-- The counters after a page is accepted. -/
def acceptPage (st : Counters) (items : List JSString) (pageNum : Nat) : Counters :=
  { textChunks := st.textChunks ++ splitTextIntoChunks (pageTextOf items) pageNum
    totalTextLength := st.totalTextLength + jsLength (pageTextOf items)
    contentPages := st.contentPages + 1
    skippedPages := st.skippedPages }

/-- The string has no whitespace character. -/
def NoSpace (w : JSString) : Prop := ∀ c ∈ w, isWhiteSpace c = false

/-- The first character, if any, is not whitespace. -/
def StartsClean (s : JSString) : Prop := ∀ c, s.head? = some c → isWhiteSpace c = false

/-- The last character, if any, is not whitespace. -/
def EndsClean (s : JSString) : Prop := ∀ c, s.getLast? = some c → isWhiteSpace c = false

/-- The window of `chunkSize` words that starts at word `i`, as a chunk. -/
def windowAt (words : List JSString) (p i : Nat) : Chunk :=
  { text := joinWith [' '] (slice words i (i + chunkSize)), page := p }

/-! ## Sample inputs -/

/-- A page of 100 five-letter words: 599 characters, no short word, no marker. -/
def prosePage : PageSource := .ok (List.replicate 100 "alpha".toList)

/-- A page with no text. -/
def blankPage : PageSource := .ok []

/-- Five blank pages followed by two pages of prose. -/
def sampleDocument : PDFDocument :=
  { pages := List.replicate 5 blankPage ++ [prosePage, prosePage] }

/-- The index computed for `sampleDocument`. -/
def sampleIndex : DocumentIndex :=
  { totalPages := 7
    contentPages := 2
    skippedPages := 5
    totalChunks := 2
    textChunks :=
      [{ text := joinWith [' '] (List.replicate 100 "alpha".toList), page := 6 },
       { text := joinWith [' '] (List.replicate 100 "alpha".toList), page := 7 }]
    totalTextLength := 1198 }

/-- Thirty-five pages of prose after five blank pages: the limit is reached at page 35. -/
def longDocument : PDFDocument :=
  { pages := List.replicate 5 blankPage ++ List.replicate 35 prosePage }

/-- The index computed for `longDocument`: pages 6 to 35 are the thirty content pages. -/
def longIndex : DocumentIndex :=
  { totalPages := 40
    contentPages := 30
    skippedPages := 5
    totalChunks := 30
    textChunks := (List.range 30).map fun k =>
      { text := joinWith [' '] (List.replicate 100 "alpha".toList), page := k + 6 }
    totalTextLength := 17970 }

/-- A page that cannot be read. -/
def brokenPage : PageSource := .error "bad page".toList

/-- Five blank pages, a page that cannot be read, and a page of prose. -/
def brokenDocument : PDFDocument :=
  { pages := List.replicate 5 blankPage ++ [brokenPage, prosePage] }

/-- A document of three pages of prose. -/
def threePageDocument : PDFDocument := { pages := List.replicate 3 prosePage }

/-- A trimmed page of exactly 1000 one-letter words. -/
def thousandWords : JSString := joinWith [' '] (List.replicate 1000 "w".toList)

/-- A trimmed page of exactly 1900 one-letter words. -/
def nineteenHundredWords : JSString := joinWith [' '] (List.replicate 1900 "w".toList)

/-- A space followed by 999 one-letter words. -/
def paddedPage : JSString := ' ' :: joinWith [' '] (List.replicate 999 "w".toList)

/-- A trimmed text of 90 words, 63 of them two letters long. -/
def borderlinePage : JSString :=
  joinWith [' '] (List.replicate 63 "ab".toList ++ List.replicate 27 "abcdefghijklmnop".toList)

/-- The counters once two content pages have been accepted. -/
def twoAccepted : Counters :=
  { textChunks := [], totalTextLength := 1198, contentPages := 2, skippedPages := 5 }

/-- The three chunks of the ranking example, as the index of a document. -/
def catIndex : DocumentIndex :=
  { totalPages := 8
    contentPages := 3
    skippedPages := 5
    totalChunks := 3
    textChunks :=
      [{ text := "the cat sat".toList, page := 6 },
       { text := "the cat sat on the mat".toList, page := 7 },
       { text := "dog".toList, page := 8 }]
    totalTextLength := 36 }

/-- The words of a chunk: the pieces of its text. -/
def chunkWords (c : Chunk) : List JSString := splitWhitespace c.text

/-- The first `chunkSize - overlap` words of every chunk but the last, followed by all the
words of the last chunk. -/
def reassembleWords : List Chunk → List JSString
  | [] => []
  | [c] => chunkWords c
  | c :: d :: later => (chunkWords c).take (chunkSize - overlap) ++ reassembleWords (d :: later)

/-- A chunk is a candidate for a query when its lower-cased text includes the lower-cased
query as a substring. -/
def isCandidate (rt : Runtime) (query : JSString) (chunk : Chunk) : Bool :=
  includes (rt.toLowerCase chunk.text) (rt.toLowerCase query)

theorem pageLoop_nil (rt : Runtime) (n : Nat) (st : Counters) :
    pageLoop rt [] n st = .ok { counters := st, pageNum := n, stoppedByCap := false } := by
  simp [pageLoop]

theorem pageLoop_error (rt : Runtime) (msg : JSString) (later : List PageSource) (n : Nat)
    (st : Counters) : pageLoop rt (.error msg :: later) n st = .error msg := by
  simp [pageLoop]

/-- One iteration of the page loop on a page that can be read. -/
theorem pageLoop_ok (rt : Runtime) (items : List JSString) (later : List PageSource) (n : Nat)
    (st : Counters) :
    pageLoop rt (.ok items :: later) n st =
      if skipsPage rt st items n then pageLoop rt later (n + 1) (skipPage st)
      else if 30 ≤ st.contentPages + 1 then
        .ok { counters := acceptPage st items n, pageNum := n, stoppedByCap := true }
      else pageLoop rt later (n + 1) (acceptPage st items n) := by
  simp only [pageLoop, skipsPage, skipPage, acceptPage, pageTextOf, ge_iff_le]
  by_cases h1 : isHeaderPage rt (trim (joinWith [' '] items)) n = true
  · simp [h1]
  · by_cases h2 : (decide (st.contentPages < 2) &&
        decide (jsLength (trim (joinWith [' '] items)) < 500)) = true
    · simp [h1, h2]
    · simp [h1, h2]

/-- Page counting along the loop, from any entry state. -/
theorem pageLoop_count (rt : Runtime) :
    ∀ (pages : List PageSource) (n : Nat) (st : Counters) (e : LoopExit),
      pageLoop rt pages n st = .ok e →
      (e.stoppedByCap = false →
        e.pageNum = n + pages.length ∧
        e.counters.contentPages + e.counters.skippedPages =
          st.contentPages + st.skippedPages + pages.length) ∧
      (e.stoppedByCap = true →
        n ≤ e.pageNum ∧ e.pageNum < n + pages.length ∧
        e.counters.contentPages + e.counters.skippedPages + n =
          st.contentPages + st.skippedPages + e.pageNum + 1) := by
  intro pages
  induction pages with
  | nil =>
    intro n st e h
    rw [pageLoop_nil] at h
    cases h
    simp
  | cons src later ih =>
    intro n st e h
    cases src with
    | error msg => rw [pageLoop_error] at h; cases h
    | ok items =>
      rw [pageLoop_ok] at h
      split at h
      · have := ih _ _ _ h
        simp only [skipPage, List.length_cons] at this ⊢
        refine ⟨fun hs => ?_, fun hs => ?_⟩
        · have := this.1 hs; omega
        · have := this.2 hs; omega
      · split at h
        · cases h
          refine ⟨fun hs => (by cases hs), fun _ => ?_⟩
          simp only [acceptPage, List.length_cons]
          omega
        · have := ih _ _ _ h
          simp only [acceptPage, List.length_cons] at this ⊢
          refine ⟨fun hs => ?_, fun hs => ?_⟩
          · have := this.1 hs; omega
          · have := this.2 hs; omega

/-- The content-page counter never passes the limit, and the loop is left through `break`
exactly when the limit is reached. -/
theorem pageLoop_cap (rt : Runtime) :
    ∀ (pages : List PageSource) (n : Nat) (st : Counters) (e : LoopExit),
      pageLoop rt pages n st = .ok e → st.contentPages < 30 →
      (e.stoppedByCap = true → e.counters.contentPages = 30) ∧
      (e.stoppedByCap = false → e.counters.contentPages < 30) := by
  intro pages
  induction pages with
  | nil =>
    intro n st e h hlt
    rw [pageLoop_nil] at h
    cases h
    simpa using hlt
  | cons src later ih =>
    intro n st e h hlt
    cases src with
    | error msg => rw [pageLoop_error] at h; cases h
    | ok items =>
      rw [pageLoop_ok] at h
      split at h
      · exact ih _ _ _ h (by simpa [skipPage] using hlt)
      · split at h
        · cases h
          simp only [acceptPage]
          constructor
          · intro _; omega
          · intro hc; cases hc
        · exact ih _ _ _ h (by simp only [acceptPage]; omega)

/-- Every chunk carries the number of the page it was cut from. -/
theorem chunkLoop_page (words : List JSString) (p : Nat) :
    ∀ (fuel i : Nat), ∀ ch ∈ chunkLoop words p fuel i, ch.page = p := by
  intro fuel
  induction fuel with
  | zero => intro i ch h; simp [chunkLoop] at h
  | succ fuel ih =>
    intro i ch h
    simp only [chunkLoop] at h
    split at h
    · split at h
      · rcases List.mem_cons.mp h with rfl | h
        · rfl
        · exact ih _ _ h
      · exact ih _ _ h
    · simp at h

theorem splitTextIntoChunks_page (text : JSString) (p : Nat) :
    ∀ ch ∈ splitTextIntoChunks text p, ch.page = p := by
  intro ch h
  simp only [splitTextIntoChunks] at h
  split at h
  · simp at h; rw [h]
  · exact chunkLoop_page _ _ _ _ _ h

/-- The pages named by the chunks added by the loop lie between the entry page and the page
at which the loop was left. -/
theorem pageLoop_chunk_pages (rt : Runtime) :
    ∀ (pages : List PageSource) (n : Nat) (st : Counters) (e : LoopExit),
      pageLoop rt pages n st = .ok e →
      ∀ ch ∈ e.counters.textChunks, ch ∈ st.textChunks ∨ (n ≤ ch.page ∧ ch.page ≤ e.pageNum) := by
  intro pages
  induction pages with
  | nil =>
    intro n st e h ch hch
    rw [pageLoop_nil] at h
    cases h
    exact Or.inl hch
  | cons src later ih =>
    intro n st e h ch hch
    cases src with
    | error msg => rw [pageLoop_error] at h; cases h
    | ok items =>
      rw [pageLoop_ok] at h
      split at h
      · rcases ih _ _ _ h ch hch with h1 | h1
        · exact Or.inl (by simpa [skipPage] using h1)
        · exact Or.inr ⟨by omega, h1.2⟩
      · split at h
        · cases h
          simp only [acceptPage, List.mem_append] at hch
          rcases hch with h1 | h1
          · exact Or.inl h1
          · have := splitTextIntoChunks_page _ _ ch h1
            exact Or.inr ⟨by omega, by simp only; omega⟩
        · rcases ih _ _ _ h ch hch with h1 | h1
          · simp only [acceptPage, List.mem_append] at h1
            rcases h1 with h1 | h1
            · exact Or.inl h1
            · have := splitTextIntoChunks_page _ _ ch h1
              have hc := pageLoop_count rt _ _ _ _ h
              refine Or.inr ⟨by omega, ?_⟩
              cases hs : e.stoppedByCap
              · have := (hc.1 hs).1; omega
              · have := (hc.2 hs).1; omega
          · exact Or.inr ⟨by omega, h1.2⟩

/-- Once the loop has been left through `break`, the pages after that page play no part:
any pages may stand in their place. -/
theorem pageLoop_stopped_prefix (rt : Runtime) :
    ∀ (pages : List PageSource) (n : Nat) (st : Counters) (e : LoopExit),
      pageLoop rt pages n st = .ok e → e.stoppedByCap = true →
      ∀ later : List PageSource,
        pageLoop rt (pages.take (e.pageNum + 1 - n) ++ later) n st = .ok e := by
  intro pages
  induction pages with
  | nil =>
    intro n st e h hs
    rw [pageLoop_nil] at h
    cases h
    simp at hs
  | cons src rest ih =>
    intro n st e h hs later
    cases src with
    | error msg => rw [pageLoop_error] at h; cases h
    | ok items =>
      have hc := (pageLoop_count rt _ _ _ _ h).2 hs
      have hk : e.pageNum + 1 - n = (e.pageNum - n) + 1 := by omega
      rw [hk, List.take_succ_cons, List.cons_append, pageLoop_ok]
      rw [pageLoop_ok] at h
      split at h
      · rename_i hskip
        rw [if_pos hskip]
        have := ih _ _ _ h hs later
        have hc2 := (pageLoop_count rt _ _ _ _ h).2 hs
        have hk2 : e.pageNum + 1 - (n + 1) = e.pageNum - n := by omega
        rw [hk2] at this
        exact this
      · rename_i hskip
        rw [if_neg hskip]
        split at h
        · rename_i hcap
          rw [if_pos hcap]
          exact h
        · rename_i hcap
          rw [if_neg hcap]
          have := ih _ _ _ h hs later
          have hk2 : e.pageNum + 1 - (n + 1) = e.pageNum - n := by omega
          rw [hk2] at this
          exact this

/-- The loop over `pre ++ post` is the loop over `pre` followed, unless it was left through
`break`, by the loop over `post`. -/
theorem pageLoop_append (rt : Runtime) :
    ∀ (pre post : List PageSource) (n : Nat) (st : Counters),
      pageLoop rt (pre ++ post) n st =
        match pageLoop rt pre n st with
        | .error msg => .error msg
        | .ok e => if e.stoppedByCap then .ok e else pageLoop rt post e.pageNum e.counters := by
  intro pre
  induction pre with
  | nil => intro post n st; simp [pageLoop_nil]
  | cons src rest ih =>
    intro post n st
    cases src with
    | error msg => simp [pageLoop_error]
    | ok items =>
      rw [List.cons_append, pageLoop_ok, pageLoop_ok]
      split
      · exact ih _ _ _
      · split
        · simp
        · exact ih _ _ _

/-- When every page can be read, the loop ends without an error. -/
theorem pageLoop_total (rt : Runtime) :
    ∀ (pages : List PageSource) (n : Nat) (st : Counters),
      (∀ src ∈ pages, ∃ items, src = .ok items) → ∃ e, pageLoop rt pages n st = .ok e := by
  intro pages
  induction pages with
  | nil => intro n st _; exact ⟨_, pageLoop_nil rt n st⟩
  | cons src rest ih =>
    intro n st hall
    obtain ⟨items, rfl⟩ := hall src (List.mem_cons_self _ _)
    have hrest : ∀ s ∈ rest, ∃ items, s = .ok items :=
      fun s hs => hall s (List.mem_cons_of_mem _ hs)
    rw [pageLoop_ok]
    split
    · exact ih _ _ hrest
    · split
      · exact ⟨_, rfl⟩
      · exact ih _ _ hrest

/-- A page numbered 5 or less is a header page whatever its text. -/
theorem isHeaderPage_front (rt : Runtime) (text : JSString) (n : Nat) (h : n ≤ 5) :
    isHeaderPage rt text n = true := by
  simp [isHeaderPage, h]

/-- While the page number stays at 5 or below every readable page is skipped. -/
theorem pageLoop_front (rt : Runtime) :
    ∀ (pages : List PageSource) (n : Nat) (st : Counters),
      (∀ src ∈ pages, ∃ items, src = .ok items) → n + pages.length ≤ 6 →
      pageLoop rt pages n st =
        .ok { counters := { st with skippedPages := st.skippedPages + pages.length },
              pageNum := n + pages.length, stoppedByCap := false } := by
  intro pages
  induction pages with
  | nil => intro n st _ _; simp [pageLoop_nil]
  | cons src rest ih =>
    intro n st hall hn
    obtain ⟨items, rfl⟩ := hall src (List.mem_cons_self _ _)
    have hrest : ∀ s ∈ rest, ∃ items, s = .ok items :=
      fun s hs => hall s (List.mem_cons_of_mem _ hs)
    simp only [List.length_cons] at hn
    have hskip : skipsPage rt st items n = true := by
      simp [skipsPage, isHeaderPage_front rt _ n (by omega)]
    rw [pageLoop_ok, if_pos hskip, ih _ _ hrest (by omega)]
    simp only [skipPage, List.length_cons]
    congr 2
    · congr 1; omega
    · omega

/-- C3: for every document, the index returned by `processPDF` has
`contentPages + skippedPages ≤ totalPages`, with equality whenever the loop was not left
through the 30-content-page `break`; and after the loop has run over any initial segment of
the pages, `contentPages + skippedPages` is the number of pages visited so far. -/
theorem C3_page_accounting (rt : Runtime) (pdf : PDFDocument) (idx : DocumentIndex)
    (h : processPDF rt (.ok pdf) = .ok idx) :
    idx.contentPages + idx.skippedPages ≤ idx.totalPages ∧
    (∃ e, pageLoop rt pdf.pages 1 Counters.initial = .ok e ∧
      idx = makeIndex pdf e.counters ∧
      idx.contentPages + idx.skippedPages = e.pagesVisited ∧
      (e.stoppedByCap = false → idx.contentPages + idx.skippedPages = idx.totalPages)) ∧
    (∀ k e, pageLoop rt (pdf.pages.take k) 1 Counters.initial = .ok e →
      e.counters.contentPages + e.counters.skippedPages = e.pagesVisited) := by
  have inv : ∀ (pages : List PageSource) (e : LoopExit),
      pageLoop rt pages 1 Counters.initial = .ok e →
      e.counters.contentPages + e.counters.skippedPages = e.pagesVisited ∧
      e.pagesVisited ≤ pages.length ∧ (e.stoppedByCap = false → e.pagesVisited = pages.length) := by
    intro pages e he
    have hc := pageLoop_count rt pages 1 Counters.initial e he
    cases hs : e.stoppedByCap
    · have := hc.1 hs
      simp only [Counters.initial] at this
      simp only [LoopExit.pagesVisited, hs]
      refine ⟨by simp; omega, by simp; omega, fun _ => by simp; omega⟩
    · have := hc.2 hs
      simp only [Counters.initial] at this
      simp only [LoopExit.pagesVisited, hs]
      refine ⟨by simp; omega, by simp; omega, fun hf => by cases hf⟩
  simp only [processPDF] at h
  split at h
  · cases h
  · rename_i e he
    cases h
    have := inv pdf.pages e he
    refine ⟨?_, ⟨e, he, rfl, ?_, ?_⟩, ?_⟩
    · simp only [makeIndex, PDFDocument.numPages]; omega
    · simp only [makeIndex]; omega
    · intro hs
      simp only [makeIndex, PDFDocument.numPages]
      have := this.2.2 hs
      omega
    · intro k e' he'
      exact (inv _ e' he').1

/-- The page accounting on a document with two content pages and five skipped ones. -/
theorem C3_page_accounting_witness :
    processPDF asciiRuntime (.ok sampleDocument) = .ok sampleIndex ∧
    sampleIndex.contentPages + sampleIndex.skippedPages ≤ sampleIndex.totalPages :=
  have h : processPDF asciiRuntime (.ok sampleDocument) = .ok sampleIndex := by decide!
  ⟨h, (C3_page_accounting asciiRuntime sampleDocument sampleIndex h).1⟩

/-- C4: the index returned by `processPDF` has `contentPages ≤ 30`; the loop is left through
`break` exactly when `contentPages` is 30, and then the pages after the page at which this
happened are not visited: they are counted neither as content nor as skipped, no chunk names
a later page, and the counters, the text length and the chunks are the same whatever pages
follow. -/
theorem C4_content_page_cap (rt : Runtime) (pdf : PDFDocument) (idx : DocumentIndex)
    (h : processPDF rt (.ok pdf) = .ok idx) :
    idx.contentPages ≤ 30 ∧
    ∃ e, pageLoop rt pdf.pages 1 Counters.initial = .ok e ∧
      idx = makeIndex pdf e.counters ∧
      (e.stoppedByCap = true ↔ idx.contentPages = 30) ∧
      (e.stoppedByCap = true →
        1 ≤ e.pageNum ∧ e.pageNum ≤ pdf.numPages ∧
        idx.contentPages + idx.skippedPages = e.pageNum ∧
        (∀ ch ∈ idx.textChunks, ch.page ≤ e.pageNum) ∧
        ∀ later : List PageSource,
          processPDF rt (.ok { pages := pdf.pages.take e.pageNum ++ later }) =
            .ok { idx with totalPages := (pdf.pages.take e.pageNum ++ later).length }) := by
  simp only [processPDF] at h
  split at h
  · cases h
  · rename_i e he
    cases h
    have hcap := pageLoop_cap rt _ _ _ _ he (by simp [Counters.initial])
    have hcount := pageLoop_count rt _ _ _ _ he
    have hle : e.counters.contentPages ≤ 30 := by
      cases hs : e.stoppedByCap
      · have := hcap.2 hs; omega
      · have := hcap.1 hs; omega
    refine ⟨hle, e, he, rfl, ⟨fun hs => hcap.1 hs, fun h30 => ?_⟩, fun hs => ?_⟩
    · cases hs : e.stoppedByCap
      · have := hcap.2 hs
        simp only [makeIndex] at h30
        omega
      · rfl
    · have hc := hcount.2 hs
      simp only [Counters.initial] at hc
      refine ⟨hc.1, ?_, ?_, ?_, ?_⟩
      · simp only [PDFDocument.numPages]; omega
      · simp only [makeIndex]; omega
      · intro ch hch
        rcases pageLoop_chunk_pages rt _ _ _ _ he ch hch with h1 | h1
        · simp [Counters.initial] at h1
        · exact h1.2
      · intro later
        have hp := pageLoop_stopped_prefix rt _ _ _ _ he hs later
        simp only [Nat.add_sub_cancel] at hp
        simp only [processPDF, hp, makeIndex, PDFDocument.numPages]

/-- The limit at work: of the 40 pages of `longDocument`, pages 36 to 40 are not visited. -/
theorem C4_content_page_cap_witness :
    processPDF asciiRuntime (.ok longDocument) = .ok longIndex ∧ longIndex.contentPages ≤ 30 :=
  have h : processPDF asciiRuntime (.ok longDocument) = .ok longIndex := by decide!
  ⟨h, (C4_content_page_cap asciiRuntime longDocument longIndex h).1⟩

/-- C5, as stated, fails: in a document that opens, one page that cannot be read makes
`processPDF` raise; no index is returned. -/
theorem C5_unreadable_page_is_fatal :
    processPDF asciiRuntime (.ok brokenDocument) =
      .error ("Failed to process PDF: bad page".toList) ∧
    ¬ ∃ idx, processPDF asciiRuntime (.ok brokenDocument) = .ok idx := by
  have h : processPDF asciiRuntime (.ok brokenDocument) =
      .error ("Failed to process PDF: bad page".toList) := by decide!
  refine ⟨h, ?_⟩
  rintro ⟨idx, hidx⟩
  rw [h] at hidx
  cases hidx

/-- C5, amended: `processPDF` returns an index when every page can be read; when a page
cannot be read and the loop reaches it (the 30-content-page limit was not reached on the pages
before it), `processPDF` raises with the message of that page and returns no index, and when
the limit was reached before it the page is never read; `processPDF` also raises when the
document cannot be opened. -/
theorem C5_page_errors_propagate (rt : Runtime) (pdf : PDFDocument) :
    ((∀ src ∈ pdf.pages, ∃ items, src = .ok items) → ∃ idx, processPDF rt (.ok pdf) = .ok idx) ∧
    (∀ (pre post : List PageSource) (msg : JSString),
      pdf.pages = pre ++ .error msg :: post → (∀ src ∈ pre, ∃ items, src = .ok items) →
      ∃ e, pageLoop rt pre 1 Counters.initial = .ok e ∧
        (e.stoppedByCap = false →
          processPDF rt (.ok pdf) = .error (failurePreamble ++ msg)) ∧
        (e.stoppedByCap = true →
          processPDF rt (.ok pdf) = .ok (makeIndex pdf e.counters))) ∧
    (∀ msg, processPDF rt (.error msg) = .error (failurePreamble ++ msg)) := by
  refine ⟨fun hall => ?_, fun pre post msg hpages hpre => ?_, fun msg => rfl⟩
  · obtain ⟨e, he⟩ := pageLoop_total rt pdf.pages 1 Counters.initial hall
    exact ⟨makeIndex pdf e.counters, by simp only [processPDF, he]⟩
  · obtain ⟨e, he⟩ := pageLoop_total rt pre 1 Counters.initial hpre
    refine ⟨e, he, fun hs => ?_, fun hs => ?_⟩
    · simp only [processPDF, hpages, pageLoop_append, he, hs, pageLoop_error]
      simp
    · simp only [processPDF, hpages, pageLoop_append, he, hs]
      simp

/-- The unreadable sixth page of `brokenDocument` is reached and its error comes back from
`processPDF`. -/
theorem C5_page_errors_propagate_witness :
    processPDF asciiRuntime (.ok brokenDocument) =
      .error (failurePreamble ++ "bad page".toList) := by
  obtain ⟨e, he, hfail, _⟩ :=
    (C5_page_errors_propagate asciiRuntime brokenDocument).2.1
      (List.replicate 5 blankPage) [prosePage] "bad page".toList rfl
      (by
        intro src hsrc
        simp only [List.mem_replicate] at hsrc
        exact ⟨[], hsrc.2⟩)
  have hpre : pageLoop asciiRuntime (List.replicate 5 blankPage) 1 Counters.initial =
      .ok { counters := { textChunks := [], totalTextLength := 0, contentPages := 0,
                          skippedPages := 5 },
            pageNum := 6, stoppedByCap := false } := by decide
  rw [hpre] at he
  cases he
  exact hfail rfl

/-- C6: a document of at most 5 pages, whatever the text of its pages, gives an index with
`contentPages = 0`, `skippedPages = totalPages`, `totalTextLength = 0` and no chunk; and
`isHeaderPage` returns `true` for every text at a page number of 5 or less. -/
theorem C6_short_document_all_skipped (rt : Runtime) (pdf : PDFDocument)
    (hlen : pdf.numPages ≤ 5) (hread : ∀ src ∈ pdf.pages, ∃ items, src = .ok items) :
    processPDF rt (.ok pdf) =
      .ok { totalPages := pdf.numPages, contentPages := 0, skippedPages := pdf.numPages,
            totalChunks := 0, textChunks := [], totalTextLength := 0 } ∧
    ∀ (text : JSString) (n : Nat), n ≤ 5 → isHeaderPage rt text n = true := by
  refine ⟨?_, fun text n hn => isHeaderPage_front rt text n hn⟩
  simp only [PDFDocument.numPages] at hlen
  have hf := pageLoop_front rt pdf.pages 1 Counters.initial hread (by omega)
  simp only [processPDF, hf]
  simp [makeIndex, Counters.initial, PDFDocument.numPages]

/-- A three-page document of prose: every page is skipped. -/
theorem C6_short_document_all_skipped_witness :
    processPDF asciiRuntime (.ok threePageDocument) =
      .ok { totalPages := 3, contentPages := 0, skippedPages := 3,
            totalChunks := 0, textChunks := [], totalTextLength := 0 } :=
  (C6_short_document_all_skipped asciiRuntime threePageDocument (by decide)
    (by
      intro src hsrc
      simp only [threePageDocument, List.mem_replicate] at hsrc
      exact ⟨_, hsrc.2⟩)).1

/-! ## Properties of the string operations -/

theorem dropWhile_fixed {p : Char → Bool} {s : JSString} (h : s.dropWhile p = s) :
    ∀ c, s.head? = some c → p c = false := by
  intro c hc
  cases s with
  | nil => simp at hc
  | cons d ds =>
    simp only [List.head?_cons, Option.some.injEq] at hc
    subst hc
    by_contra hp
    simp only [Bool.not_eq_false] at hp
    rw [List.dropWhile_cons, if_pos hp] at h
    have := (List.dropWhile_sublist p (l := ds)).length_le
    rw [h] at this
    simp at this

/-- A string left unchanged by `trim` neither starts nor ends with whitespace. -/
theorem trimmed_clean {s : JSString} (h : trim s = s) : StartsClean s ∧ EndsClean s := by
  have hlen1 : (s.dropWhile isWhiteSpace).length ≤ s.length :=
    (List.dropWhile_sublist isWhiteSpace).length_le
  have hlen2 : ((s.dropWhile isWhiteSpace).reverse.dropWhile isWhiteSpace).length ≤
      (s.dropWhile isWhiteSpace).reverse.length :=
    (List.dropWhile_sublist isWhiteSpace).length_le
  have hlen3 : (trim s).length = s.length := by rw [h]
  simp only [trim, List.length_reverse] at hlen3 hlen2
  have h1 : s.dropWhile isWhiteSpace = s :=
    (List.dropWhile_sublist isWhiteSpace).eq_of_length_le (by omega)
  have h2 : s.reverse.dropWhile isWhiteSpace = s.reverse := by
    have := h
    simp only [trim, h1] at this
    rw [List.reverse_eq_iff] at this
    exact this
  refine ⟨dropWhile_fixed h1, ?_⟩
  intro c hc
  exact dropWhile_fixed h2 c (by rw [List.head?_reverse]; exact hc)

theorem splitWhitespace_ne_nil : ∀ s : JSString, splitWhitespace s ≠ [] := by
  intro s
  induction s with
  | nil => simp [splitWhitespace]
  | cons c cs ih =>
    by_cases hc : isWhiteSpace c = true
    · cases cs with
      | nil => simp [splitWhitespace, hc]
      | cons d ds =>
        by_cases hd : isWhiteSpace d = true
        · simpa [splitWhitespace, hc, hd] using ih
        · simp [splitWhitespace, hc, hd]
    · cases hsp : splitWhitespace cs with
      | nil => exact absurd hsp ih
      | cons w ws => simp [splitWhitespace, hc, hsp]

/-- Splitting a string that starts with a non-whitespace character. -/
theorem splitWhitespace_cons_clean {c : Char} (cs : JSString) (hc : isWhiteSpace c = false) :
    ∃ w ws, splitWhitespace cs = w :: ws ∧ splitWhitespace (c :: cs) = (c :: w) :: ws := by
  cases hsp : splitWhitespace cs with
  | nil => exact absurd hsp (splitWhitespace_ne_nil cs)
  | cons w ws => exact ⟨w, ws, rfl, by simp [splitWhitespace, hc, hsp]⟩

/-- The pieces of a split contain no whitespace. -/
theorem splitWhitespace_noSpace : ∀ s : JSString, ∀ w ∈ splitWhitespace s, NoSpace w := by
  intro s
  induction s with
  | nil =>
    intro w hw
    simp only [splitWhitespace, List.mem_singleton] at hw
    subst hw
    intro c hc
    simp at hc
  | cons c cs ih =>
    intro w hw
    by_cases hc : isWhiteSpace c = true
    · cases cs with
      | nil =>
        simp only [splitWhitespace, hc, if_true, List.mem_cons, List.mem_singleton,
          List.not_mem_nil, or_false, or_self] at hw
        subst hw
        intro c hc
        simp at hc
      | cons d ds =>
        by_cases hd : isWhiteSpace d = true
        · simp only [splitWhitespace, hc, hd, if_true] at hw ih
          exact ih w hw
        · have hsplit : splitWhitespace (c :: d :: ds) = [] :: splitWhitespace (d :: ds) := by
            simp only [splitWhitespace, hc, hd, if_true]
            simp
          rw [hsplit, List.mem_cons] at hw
          rcases hw with rfl | hw
          · intro c hc; simp at hc
          · exact ih w hw
    · simp only [Bool.not_eq_true] at hc
      obtain ⟨v, vs, hcs, hsplit⟩ := splitWhitespace_cons_clean cs hc
      rw [hsplit, List.mem_cons] at hw
      rw [hcs] at ih
      rcases hw with rfl | hw
      · intro x hx
        rcases List.mem_cons.mp hx with rfl | hx
        · exact hc
        · exact ih v (List.mem_cons_self _ _) x hx
      · exact ih w (List.mem_cons_of_mem _ hw)

/-- In a non-empty string that does not end with whitespace, only the first piece of the
split can be empty, and it is empty only when the string starts with whitespace. -/
theorem splitWhitespace_pieces_nonempty :
    ∀ s : JSString, s ≠ [] → EndsClean s →
      (∀ w ∈ (splitWhitespace s).tail, w ≠ []) ∧
      (StartsClean s → ∀ w ∈ (splitWhitespace s).head?, w ≠ []) := by
  intro s
  induction s with
  | nil => intro h; exact absurd rfl h
  | cons c cs ih =>
    intro _ hend
    by_cases hc : isWhiteSpace c = true
    · cases cs with
      | nil =>
        have := hend c (by simp)
        rw [hc] at this
        cases this
      | cons d ds =>
        have hend' : EndsClean (d :: ds) := by
          intro x hx
          exact hend x (by rw [List.getLast?_cons_cons]; exact hx)
        have ih' := ih (by simp) hend'
        refine ⟨?_, fun hstart => ?_⟩
        · by_cases hd : isWhiteSpace d = true
          · have hsplit : splitWhitespace (c :: d :: ds) = splitWhitespace (d :: ds) := by
              simp only [splitWhitespace, hc, hd, if_true]
            rw [hsplit]
            exact ih'.1
          · have hsplit : splitWhitespace (c :: d :: ds) = [] :: splitWhitespace (d :: ds) := by
              simp only [splitWhitespace, hc, hd, if_true]
              simp
            rw [hsplit, List.tail_cons]
            intro w hw
            have hstart : StartsClean (d :: ds) := by
              intro x hx
              simp only [List.head?_cons, Option.some.injEq] at hx
              subst hx
              simpa using hd
            cases hsp : splitWhitespace (d :: ds) with
            | nil => rw [hsp] at hw; simp at hw
            | cons v vs =>
              rw [hsp] at hw ih'
              rcases List.mem_cons.mp hw with rfl | hw
              · exact ih'.2 hstart w (by simp)
              · exact ih'.1 w (by simpa using hw)
        · have := hstart c (by simp)
          rw [hc] at this
          cases this
    · simp only [Bool.not_eq_true] at hc
      obtain ⟨v, vs, hcs, hsplit⟩ := splitWhitespace_cons_clean cs hc
      rw [hsplit]
      refine ⟨?_, fun _ w hw => ?_⟩
      · cases cs with
        | nil =>
          simp only [splitWhitespace, List.cons.injEq] at hcs
          rw [← hcs.2]
          simp
        | cons d ds =>
          have hend' : EndsClean (d :: ds) := by
            intro x hx
            exact hend x (by rw [List.getLast?_cons_cons]; exact hx)
          have ih' := (ih (by simp) hend').1
          rw [hcs] at ih'
          simpa using ih'
      · simp only [List.head?_cons, Option.mem_def, Option.some.injEq] at hw
        subst hw
        simp

/-- The pieces of a non-empty trimmed string are its words: none of them is empty. -/
theorem splitWhitespace_trimmed {s : JSString} (hne : s ≠ []) (h : trim s = s) :
    ∀ w ∈ splitWhitespace s, w ≠ [] := by
  obtain ⟨hstart, hend⟩ := trimmed_clean h
  have hp := splitWhitespace_pieces_nonempty s hne hend
  intro w hw
  cases hsp : splitWhitespace s with
  | nil => rw [hsp] at hw; simp at hw
  | cons v vs =>
    rw [hsp] at hw hp
    rcases List.mem_cons.mp hw with rfl | hw
    · exact hp.2 hstart w (by simp)
    · exact hp.1 w (by simpa using hw)

theorem mem_dropWhile_of_false {p : Char → Bool} {c : Char} :
    ∀ s : JSString, c ∈ s → p c = false → c ∈ s.dropWhile p := by
  intro s
  induction s with
  | nil => intro h; simp at h
  | cons d ds ih =>
    intro h hp
    rw [List.dropWhile_cons]
    split
    · rename_i hd
      rcases List.mem_cons.mp h with rfl | h
      · rw [hp] at hd; cases hd
      · exact ih h hp
    · exact h

/-- A string with a non-whitespace character is not blank. -/
theorem trim_ne_nil {s : JSString} {c : Char} (hc : c ∈ s) (hw : isWhiteSpace c = false) :
    trim s ≠ [] := by
  intro h
  simp only [trim, List.reverse_eq_nil_iff, List.dropWhile_eq_nil_iff, List.mem_reverse] at h
  have := h c (mem_dropWhile_of_false s hc hw)
  rw [hw] at this
  cases this

theorem mem_joinWith (sep : JSString) {c : Char} {w : JSString} :
    ∀ ws : List JSString, w ∈ ws → c ∈ w → c ∈ joinWith sep ws := by
  intro ws
  induction ws with
  | nil => intro h; simp at h
  | cons v vs ih =>
    intro h hc
    cases vs with
    | nil =>
      simp only [List.mem_singleton] at h
      subst h
      simpa [joinWith] using hc
    | cons u us =>
      simp only [joinWith, List.mem_append]
      rcases List.mem_cons.mp h with rfl | h
      · exact Or.inl (Or.inl hc)
      · exact Or.inr (ih h hc)

/-- A string without whitespace is a single piece. -/
theorem splitWhitespace_single : ∀ w : JSString, NoSpace w → splitWhitespace w = [w] := by
  intro w
  induction w with
  | nil => intro _; rfl
  | cons c cs ih =>
    intro h
    have hc : isWhiteSpace c = false := h c (List.mem_cons_self _ _)
    have hcs : NoSpace cs := fun x hx => h x (List.mem_cons_of_mem _ hx)
    simp [splitWhitespace, hc, ih hcs]

/-- Splitting at a single space between a whitespace-free word and a text that starts with
a non-whitespace character. -/
theorem splitWhitespace_append_space :
    ∀ (w t : JSString), NoSpace w → t ≠ [] → StartsClean t →
      splitWhitespace (w ++ [' '] ++ t) = w :: splitWhitespace t := by
  intro w
  induction w with
  | nil =>
    intro t _ hne hstart
    cases t with
    | nil => exact absurd rfl hne
    | cons d ds =>
      have hd : isWhiteSpace d = false := hstart d (by simp)
      have hsp : isWhiteSpace ' ' = true := by decide
      simp only [List.nil_append, List.singleton_append, splitWhitespace, hsp, hd, if_true]
      simp [hd]
  | cons c cs ih =>
    intro t h hne hstart
    have hc : isWhiteSpace c = false := h c (List.mem_cons_self _ _)
    have hcs : NoSpace cs := fun x hx => h x (List.mem_cons_of_mem _ hx)
    have := ih t hcs hne hstart
    simp only [List.cons_append, List.append_assoc, List.nil_append] at this ⊢
    simp [splitWhitespace, hc, this]

/-- The words of a joined list of words are the list itself: `split` undoes `join`. -/
theorem splitWhitespace_joinWith :
    ∀ ws : List JSString, ws ≠ [] → (∀ w ∈ ws, w ≠ [] ∧ NoSpace w) →
      splitWhitespace (joinWith [' '] ws) = ws := by
  intro ws
  induction ws with
  | nil => intro h; exact absurd rfl h
  | cons v vs ih =>
    intro _ hall
    have hv := hall v (List.mem_cons_self _ _)
    cases vs with
    | nil => simpa [joinWith] using splitWhitespace_single v hv.2
    | cons u us =>
      have hrest : ∀ w ∈ u :: us, w ≠ [] ∧ NoSpace w :=
        fun w hw => hall w (List.mem_cons_of_mem _ hw)
      have hu := hrest u (List.mem_cons_self _ _)
      have hjoin : ∃ d ds, joinWith [' '] (u :: us) = d :: ds ∧ isWhiteSpace d = false := by
        cases u with
        | nil => exact absurd rfl hu.1
        | cons d ds =>
          have hd := hu.2 d (List.mem_cons_self _ _)
          cases us with
          | nil => exact ⟨d, ds, by simp [joinWith], hd⟩
          | cons x xs => exact ⟨d, _, by simp only [joinWith, List.cons_append]; rfl, hd⟩
      obtain ⟨d, ds, hds, hd⟩ := hjoin
      have hne : joinWith [' '] (u :: us) ≠ [] := by rw [hds]; simp
      have hstart : StartsClean (joinWith [' '] (u :: us)) := by
        intro x hx
        rw [hds] at hx
        simp only [List.head?_cons, Option.some.injEq] at hx
        subst hx
        exact hd
      have := splitWhitespace_append_space v _ hv.2 hne hstart
      simp only [joinWith]
      rw [this, ih (by simp) hrest]

/-! ## Properties of the chunker -/

/-- Iterations beyond those that the loop needs change nothing: the bound on the number of
iterations is never what ends the loop. -/
theorem chunkLoop_fuel (words : List JSString) (p : Nat) :
    ∀ (fuel i : Nat), words.length ≤ i + (chunkSize - overlap) * fuel →
      ∀ extra, chunkLoop words p (fuel + extra) i = chunkLoop words p fuel i := by
  intro fuel
  induction fuel with
  | zero =>
    intro i h extra
    cases extra with
    | zero => rfl
    | succ k =>
      have : ¬ i < words.length := by omega
      simp [chunkLoop, this]
  | succ fuel ih =>
    intro i h extra
    have hrw : fuel + 1 + extra = (fuel + extra) + 1 := by omega
    have hnext : words.length ≤ i + (chunkSize - overlap) + (chunkSize - overlap) * fuel := by
      rw [Nat.mul_succ] at h
      omega
    rw [hrw]
    simp only [chunkLoop]
    rw [ih _ hnext extra]

/-- A window that starts inside a list of words is not blank. -/
theorem window_not_blank (words : List JSString) (hw : ∀ w ∈ words, w ≠ [] ∧ NoSpace w)
    (i : Nat) (hi : i < words.length) :
    trim (joinWith [' '] (slice words i (i + chunkSize))) ≠ [] := by
  have hmem : words[i] ∈ slice words i (i + chunkSize) := by
    have hsize : chunkSize = 999 + 1 := rfl
    simp only [slice, Nat.add_sub_cancel_left]
    rw [List.drop_eq_getElem_cons hi, hsize, List.take_succ_cons]
    exact List.mem_cons_self _ _
  have hwi := hw words[i] (List.getElem_mem hi)
  cases hwd : words[i] with
  | nil => exact absurd hwd hwi.1
  | cons c cs =>
    have hc : c ∈ words[i] := by rw [hwd]; simp
    exact trim_ne_nil (mem_joinWith _ _ hmem hc) (hwi.2 c hc)

/-- The loop over a list of words pushes one window every `chunkSize - overlap` words. -/
theorem chunkLoop_windows (words : List JSString) (p : Nat)
    (hw : ∀ w ∈ words, w ≠ [] ∧ NoSpace w) :
    ∀ (fuel i : Nat), words.length ≤ i + 900 * fuel →
      chunkLoop words p fuel i =
        (List.range ((words.length - i + 899) / 900)).map
          (fun k => windowAt words p (i + 900 * k)) := by
  intro fuel
  induction fuel with
  | zero =>
    intro i h
    have : (words.length - i + 899) / 900 = 0 := by omega
    simp [chunkLoop, this]
  | succ fuel ih =>
    intro i h
    simp only [chunkLoop]
    by_cases hi : i < words.length
    · have hcount : (words.length - i + 899) / 900 =
          (words.length - (i + 900) + 899) / 900 + 1 := by omega
      have hstep : chunkSize - overlap = 900 := rfl
      rw [if_pos hi, if_pos (window_not_blank words hw i hi), hstep, ih (i + 900) (by omega),
        hcount, List.range_succ_eq_map, List.map_cons, List.map_map]
      simp only [Nat.mul_zero, Nat.add_zero]
      refine congrArg₂ List.cons rfl ?_
      apply List.map_congr_left
      intro k _
      have hk : i + 900 + 900 * k = i + 900 * (k + 1) := by omega
      simp only [Function.comp_apply, Nat.succ_eq_add_one, hk]
    · have : (words.length - i + 899) / 900 = 0 := by omega
      simp [hi, this]

/-- A trimmed text of at least `chunkSize` words is cut into the windows that start every
`chunkSize - overlap` words; its pieces are non-empty words without whitespace. -/
theorem splitTextIntoChunks_long (text : JSString) (p : Nat) (htrim : trim text = text)
    (hN : chunkSize ≤ (splitWhitespace text).length) :
    (∀ w ∈ splitWhitespace text, w ≠ [] ∧ NoSpace w) ∧
    splitTextIntoChunks text p =
      (List.range (((splitWhitespace text).length + 899) / 900)).map
        (fun k => windowAt (splitWhitespace text) p (900 * k)) := by
  have hne : text ≠ [] := by
    intro h
    rw [h] at hN
    simp [splitWhitespace, chunkSize] at hN
  have hw : ∀ w ∈ splitWhitespace text, w ≠ [] ∧ NoSpace w :=
    fun w hw => ⟨splitWhitespace_trimmed hne htrim w hw, splitWhitespace_noSpace text w hw⟩
  refine ⟨hw, ?_⟩
  have hlong : ¬ (splitWhitespace text).length < chunkSize := by omega
  simp only [splitTextIntoChunks, if_neg hlong]
  rw [chunkLoop_windows _ p hw _ 0 (by omega)]
  simp

/-- A text of fewer than `chunkSize` pieces gives the single chunk of the short-page branch. -/
theorem splitTextIntoChunks_short (text : JSString) (p : Nat)
    (h : (splitWhitespace text).length < chunkSize) :
    splitTextIntoChunks text p = [{ text := trim text, page := p }] := by
  simp [splitTextIntoChunks, h]

/-- The chunks pushed by the loop of the long-page branch are not blank. -/
theorem chunkLoop_not_blank (words : List JSString) (p : Nat) :
    ∀ (fuel i : Nat), ∀ ch ∈ chunkLoop words p fuel i, trim ch.text ≠ [] := by
  intro fuel
  induction fuel with
  | zero => intro i ch h; simp [chunkLoop] at h
  | succ fuel ih =>
    intro i ch h
    simp only [chunkLoop] at h
    split at h
    · split at h
      · rename_i hblank
        rcases List.mem_cons.mp h with rfl | h
        · exact hblank
        · exact ih _ _ h
      · exact ih _ _ h
    · simp at h

/-- C7, at a failing input: a leading space followed by 999 words has fewer than 1000
words, yet `splitTextIntoChunks` counts the empty piece before the space as a word, takes
the long-page branch and returns two chunks, the first being the untrimmed text and the
second its last 100 words. -/
theorem C7_leading_space_gives_two_chunks :
    ((splitWhitespace paddedPage).filter (fun w => w ≠ [])).length = 999 ∧
    (splitWhitespace paddedPage).length = 1000 ∧
    trim paddedPage ≠ paddedPage ∧
    splitTextIntoChunks paddedPage 6 =
      [{ text := paddedPage, page := 6 },
       { text := joinWith [' '] (List.replicate 100 "w".toList), page := 6 }] := by
  decide!

/-- C8, as stated, fails: a trimmed page of exactly 1000 words gives 2 chunks and one of 1900
words gives 3, where `ceil((N - overlap) / (chunkSize - overlap))` is 1 and 2. -/
theorem C8_thousand_words_two_chunks :
    trim thousandWords = thousandWords ∧
    (splitWhitespace thousandWords).length = 1000 ∧
    (splitTextIntoChunks thousandWords 6).length = 2 ∧
    (1000 - overlap + (chunkSize - overlap) - 1) / (chunkSize - overlap) = 1 ∧
    trim nineteenHundredWords = nineteenHundredWords ∧
    (splitWhitespace nineteenHundredWords).length = 1900 ∧
    (splitTextIntoChunks nineteenHundredWords 6).length = 3 ∧
    (1900 - overlap + (chunkSize - overlap) - 1) / (chunkSize - overlap) = 2 := by
  decide!

/-- C8, amended: for a trimmed text of `N ≥ chunkSize` words the number of chunks is
`ceil(N / (chunkSize - overlap))`, the least `m` with `N ≤ (chunkSize - overlap) * m`; the
pieces counted by `N` are non-empty words. -/
theorem C8_chunk_count (text : JSString) (p : Nat) (htrim : trim text = text)
    (hN : chunkSize ≤ (splitWhitespace text).length) :
    (∀ w ∈ splitWhitespace text, w ≠ []) ∧
    (splitTextIntoChunks text p).length =
      ((splitWhitespace text).length + (chunkSize - overlap) - 1) / (chunkSize - overlap) ∧
    (chunkSize - overlap) * ((splitTextIntoChunks text p).length - 1) <
      (splitWhitespace text).length ∧
    (splitWhitespace text).length ≤ (chunkSize - overlap) * (splitTextIntoChunks text p).length := by
  obtain ⟨hw, hchunks⟩ := splitTextIntoChunks_long text p htrim hN
  have hlen : (splitTextIntoChunks text p).length = ((splitWhitespace text).length + 899) / 900 := by
    rw [hchunks]; simp
  have hstep : chunkSize - overlap = 900 := rfl
  have hsize : chunkSize = 1000 := rfl
  rw [hstep, hlen]
  rw [hsize] at hN
  refine ⟨fun w h => (hw w h).1, ?_, ?_, ?_⟩ <;> omega

/-- The chunk count on a page of exactly 1000 words. -/
theorem C8_chunk_count_witness :
    trim thousandWords = thousandWords ∧
    chunkSize ≤ (splitWhitespace thousandWords).length ∧
    (splitTextIntoChunks thousandWords 6).length =
      ((splitWhitespace thousandWords).length + (chunkSize - overlap) - 1) /
        (chunkSize - overlap) :=
  have h1 : trim thousandWords = thousandWords := by decide!
  have h2 : chunkSize ≤ (splitWhitespace thousandWords).length := by decide!
  ⟨h1, h2, (C8_chunk_count thousandWords 6 h1 h2).2.1⟩

/-- C10, at failing inputs: for the empty text and for a text of two spaces the short-page
branch of `splitTextIntoChunks` returns one chunk whose text is empty. -/
theorem C10_empty_text_gives_blank_chunk :
    splitTextIntoChunks [] 6 = [{ text := [], page := 6 }] ∧
    splitTextIntoChunks [' ', ' '] 6 = [{ text := [], page := 6 }] ∧
    trim ([] : JSString) = [] := by
  decide

/-! ## The page filter at the 70% boundary, and the prompt -/

/-- What the code decides: a page is accepted exactly when none of the tests of
`isHeaderPage` and of the loop body fires, the last test of `isHeaderPage` being the
binary64 comparison `shortWords > words.length * 0.7`. -/
theorem skipsPage_eq_false_iff (rt : Runtime) (st : Counters) (items : List JSString)
    (n : Nat) :
    skipsPage rt st items n = false ↔
      (¬ n ≤ 5 ∧
       (∀ m ∈ headerMarkers, includes (rt.toLowerCase (pageTextOf items)) m = false) ∧
       ¬ jsLength (pageTextOf items) < 200 ∧
       ¬ (st.contentPages < 2 ∧ jsLength (pageTextOf items) < 500) ∧
       exceedsSeventyPercent
         ((splitWhitespace (pageTextOf items)).filter (fun w => jsLength w ≤ 3)).length
         (splitWhitespace (pageTextOf items)).length = false) := by
  simp only [skipsPage, isHeaderPage, headerMarkers, Bool.or_eq_false_iff,
    Bool.and_eq_false_iff, decide_eq_false_iff_not, List.mem_cons, List.mem_singleton,
    List.not_mem_nil, or_false, forall_eq_or_imp, forall_eq]
  by_cases h5 : n ≤ 5
  · simp [h5]
  · by_cases hlen : jsLength (pageTextOf items) < 200
    · simp [h5, hlen]
    · simp only [h5, hlen, if_false, false_or, not_false_eq_true, true_and, not_and]
      constructor
      · rintro ⟨h1, h2⟩
        split at h1
        · cases h1
        · rename_i hm
          simp only [Bool.or_eq_true, not_or, Bool.not_eq_true] at hm
          split at h1
          · cases h1
          · rename_i he
            simp only [Bool.not_eq_true] at he
            refine ⟨⟨hm.1.1.1.1.1.1.1, hm.1.1.1.1.1.1.2, hm.1.1.1.1.1.2, hm.1.1.1.1.2,
              hm.1.1.1.2, hm.1.1.2, hm.1.2, hm.2⟩, ?_, he⟩
            intro hc
            rcases h2 with h2 | h2
            · exact absurd hc h2
            · exact h2
      · rintro ⟨⟨m1, m2, m3, m4, m5, m6, m7, m8⟩, h2, he⟩
        refine ⟨?_, ?_⟩
        · simp only [m1, m2, m3, m4, m5, m6, m7, m8, he, Bool.or_self, Bool.false_eq_true,
            if_false]
        · by_cases hc : st.contentPages < 2
          · exact Or.inr (h2 hc)
          · exact Or.inl hc

/-- C2, at a failing input: a trimmed page of 90 words of which exactly 63 (70%) have at most
3 characters, at page 6 with two content pages accepted, meets none of the five rejection
rules as the claim states them, yet `isHeaderPage` returns `true` and the page is skipped:
the binary64 product `90 * 0.7` is `62.99999999999999`, which 63 exceeds. -/
theorem C2_exactly_seventy_percent_rejected :
    trim borderlinePage = borderlinePage ∧
    ¬ (6 ≤ 5) ∧
    (∀ m ∈ headerMarkers, includes (asciiRuntime.toLowerCase borderlinePage) m = false) ∧
    ¬ (jsLength borderlinePage < 200) ∧
    ¬ (twoAccepted.contentPages < 2 ∧ jsLength borderlinePage < 500) ∧
    (splitWhitespace borderlinePage).length = 90 ∧
    ((splitWhitespace borderlinePage).filter (fun w => jsLength w ≤ 3)).length = 63 ∧
    ¬ (7 * 90 < 10 * 63) ∧
    timesPoint7 90 < 63 * 2 ^ 53 ∧
    isHeaderPage asciiRuntime borderlinePage 6 = true ∧
    skipsPage asciiRuntime twoAccepted [borderlinePage] 6 = true := by
  decide!

/-- C1, as stated, fails: for the question `cat` the ranker returns the second chunk and then
the first, and not the third, while the prompt context holds the three chunks in document
order. -/
theorem C1_prompt_ignores_ranking :
    (searchText asciiRuntime catIndex.textChunks "cat".toList).map
        (fun found => found.map (fun r => r.chunk)) =
      some [{ text := "the cat sat on the mat".toList, page := 7 },
            { text := "the cat sat".toList, page := 6 }] ∧
    relevantChunks catIndex =
      [{ text := "the cat sat".toList, page := 6 },
       { text := "the cat sat on the mat".toList, page := 7 },
       { text := "dog".toList, page := 8 }] ∧
    contextText (some catIndex) =
      ("[Page 6, Chunk 1]: the cat sat\n\n[Page 7, Chunk 2]: the cat sat on the mat\n\n" ++
        "[Page 8, Chunk 3]: dog").toList := by
  decide!

theorem mapWithIndex_getElem? {α β : Type} (f : α → Nat → β) :
    ∀ (xs : List α) (start k : Nat),
      (mapWithIndex f xs start)[k]? = (xs[k]?).map (fun x => f x (start + k)) := by
  intro xs
  induction xs with
  | nil => intro start k; simp [mapWithIndex]
  | cons x xs ih =>
    intro start k
    cases k with
    | zero => simp [mapWithIndex]
    | succ k =>
      simp only [mapWithIndex, List.getElem?_cons_succ, ih]
      congr 1
      funext y
      congr 1
      omega

theorem joinWith_ne_nil (sep : JSString) {w : JSString} (ws : List JSString) (hw : w ≠ []) :
    joinWith sep (w :: ws) ≠ [] := by
  cases ws with
  | nil => simpa [joinWith] using hw
  | cons v vs => simp [joinWith, hw]

/-- C1, amended: for every document index and every question, the chunks placed in the
prompt context are the first (at most 5) chunks of the index, in document order and whatever
the question; chunk `k` of them is labelled with its page and with `k + 1`; the prompt is the
opening, the context (or the fallback text when there is no chunk), the question heading,
the question and the closing. -/
theorem C1_prompt_uses_first_chunks (info : DocumentIndex) (question : JSString) :
    relevantChunks info = info.textChunks.take 5 ∧
    (relevantChunks info).length = min 5 info.textChunks.length ∧
    contextText (some info) =
      joinWith "\n\n".toList (mapWithIndex chunkLabel (info.textChunks.take 5) 0) ∧
    (∀ (k : Nat) (c : Chunk), (info.textChunks.take 5)[k]? = some c →
      (mapWithIndex chunkLabel (info.textChunks.take 5) 0)[k]? =
        some ("[Page ".toList ++ numberToString c.page ++ ", Chunk ".toList ++
          numberToString (k + 1) ++ "]: ".toList ++ c.text)) ∧
    buildPrompt (some info) question =
      promptOpening ++
        (if info.textChunks = [] then contextFallback else contextText (some info)) ++
        questionHeading ++ question ++ promptClosing := by
  have hrel : relevantChunks info = info.textChunks.take 5 := by
    simp [relevantChunks, slice]
  refine ⟨hrel, ?_, ?_, ?_, ?_⟩
  · rw [hrel, List.length_take]
  · simp only [contextText, hrel]
  · intro k c hc
    rw [mapWithIndex_getElem?, hc]
    simp [chunkLabel]
  · simp only [buildPrompt]
    by_cases hnil : info.textChunks = []
    · have hctx : contextText (some info) = [] := by
        simp [contextText, hrel, hnil, mapWithIndex, joinWith]
      simp [hnil, hctx]
    · have hctx : contextText (some info) ≠ [] := by
        simp only [contextText, hrel]
        cases hch : info.textChunks with
        | nil => exact absurd hch hnil
        | cons ch chs =>
          simp only [List.take_succ_cons, mapWithIndex]
          apply joinWith_ne_nil
          simp [chunkLabel]
      simp [hnil, hctx]

/-! ## Chunking loses no text -/

/-- Past the end of the words the loop pushes nothing. -/
theorem chunkLoop_past_end (words : List JSString) (p : Nat) (fuel i : Nat)
    (h : words.length ≤ i) : chunkLoop words p fuel i = [] := by
  cases fuel with
  | zero => rfl
  | succ fuel =>
    have : ¬ i < words.length := by omega
    simp [chunkLoop, this]

/-- The words of a window that starts inside a list of clean words. -/
theorem chunkWords_windowAt (words : List JSString) (p : Nat)
    (hw : ∀ w ∈ words, w ≠ [] ∧ NoSpace w) (i : Nat) (hi : i < words.length) :
    chunkWords (windowAt words p i) = (words.drop i).take 1000 := by
  have hslice : slice words i (i + chunkSize) = (words.drop i).take 1000 := by
    simp only [slice, Nat.add_sub_cancel_left]
    rfl
  simp only [chunkWords, windowAt, hslice]
  apply splitWhitespace_joinWith
  · intro hnil
    have := congrArg List.length hnil
    simp only [List.length_take, List.length_drop, List.length_nil] at this
    omega
  · intro w hmem
    exact hw w (List.mem_of_mem_drop (List.mem_of_mem_take hmem))

/-- Reassembling the chunks pushed by the loop from word `i` on gives the words from `i` on. -/
theorem reassembleWords_chunkLoop (words : List JSString) (p : Nat)
    (hw : ∀ w ∈ words, w ≠ [] ∧ NoSpace w) :
    ∀ (fuel i : Nat), words.length ≤ i + 900 * fuel → i < words.length →
      reassembleWords (chunkLoop words p fuel i) = words.drop i := by
  intro fuel
  induction fuel with
  | zero => intro i h hi; omega
  | succ fuel ih =>
    intro i h hi
    have hstep : chunkSize - overlap = 900 := rfl
    have hhead : chunkLoop words p (fuel + 1) i =
        windowAt words p i :: chunkLoop words p fuel (i + 900) := by
      simp only [chunkLoop, if_pos hi, if_pos (window_not_blank words hw i hi), hstep]
      rfl
    rw [hhead]
    by_cases hnext : i + 900 < words.length
    · have hrest := ih (i + 900) (by omega) hnext
      cases hloop : chunkLoop words p fuel (i + 900) with
      | nil =>
        rw [hloop] at hrest
        have := congrArg List.length hrest
        simp only [reassembleWords, List.length_nil, List.length_drop] at this
        omega
      | cons d later =>
        rw [hloop] at hrest
        simp only [reassembleWords, hstep]
        rw [hrest, chunkWords_windowAt words p hw i hi, List.take_take]
        have hmin : min 900 1000 = 900 := by decide
        rw [hmin]
        have hdrop : words.drop (i + 900) = (words.drop i).drop 900 := by
          rw [List.drop_drop]
        rw [hdrop, List.take_append_drop]
    · rw [chunkLoop_past_end words p fuel (i + 900) (by omega)]
      simp only [reassembleWords]
      rw [chunkWords_windowAt words p hw i hi]
      apply List.take_of_length_le
      rw [List.length_drop]
      omega

/-- The words of the chunk at position `k` of a long trimmed text, and the bound on `k`. -/
theorem chunkWords_long (text : JSString) (p : Nat) (htrim : trim text = text)
    (hN : chunkSize ≤ (splitWhitespace text).length) (k : Nat) (c : Chunk)
    (hc : (splitTextIntoChunks text p)[k]? = some c) :
    900 * k < (splitWhitespace text).length ∧
    ((splitTextIntoChunks text p).length = ((splitWhitespace text).length + 899) / 900) ∧
    chunkWords c = ((splitWhitespace text).drop (900 * k)).take 1000 := by
  obtain ⟨hw, hchunks⟩ := splitTextIntoChunks_long text p htrim hN
  have hlen : (splitTextIntoChunks text p).length =
      ((splitWhitespace text).length + 899) / 900 := by
    rw [hchunks]; simp
  have hk : k < ((splitWhitespace text).length + 899) / 900 := by
    rw [← hlen]
    by_contra hge
    rw [List.getElem?_eq_none (by omega)] at hc
    cases hc
  rw [hchunks, List.getElem?_map, List.getElem?_range hk] at hc
  simp only [Option.map_some', Option.some.injEq] at hc
  subst hc
  have hlt : 900 * k < (splitWhitespace text).length := by omega
  exact ⟨hlt, hlen, chunkWords_windowAt _ p hw _ hlt⟩

/-- C14: for every trimmed non-empty text, `splitTextIntoChunks` returns at least one chunk;
every chunk but the last has more than `chunkSize - overlap` words; the first
`chunkSize - overlap` words of every chunk but the last followed by all the words of the last
chunk are exactly the words of the text in order; so every word of the text is a word of
some chunk; every chunk carries the given page number; and the pieces of the text are its
words, none of them empty. -/
theorem C14_chunking_loses_no_text (text : JSString) (p : Nat) (htrim : trim text = text)
    (hne : text ≠ []) :
    splitTextIntoChunks text p ≠ [] ∧
    (∀ (k : Nat) (c : Chunk), (splitTextIntoChunks text p)[k]? = some c →
      k + 1 < (splitTextIntoChunks text p).length →
      chunkSize - overlap < (chunkWords c).length) ∧
    reassembleWords (splitTextIntoChunks text p) = splitWhitespace text ∧
    (∀ w ∈ splitWhitespace text, ∃ c ∈ splitTextIntoChunks text p, w ∈ chunkWords c) ∧
    (∀ c ∈ splitTextIntoChunks text p, c.page = p) ∧
    (∀ w ∈ splitWhitespace text, w ≠ []) := by
  have hstep : chunkSize - overlap = 900 := rfl
  have hsize : chunkSize = 1000 := rfl
  -- the three facts that depend on the branch taken
  have main : splitTextIntoChunks text p ≠ [] ∧
      (∀ (k : Nat) (c : Chunk), (splitTextIntoChunks text p)[k]? = some c →
        k + 1 < (splitTextIntoChunks text p).length → 900 < (chunkWords c).length) ∧
      reassembleWords (splitTextIntoChunks text p) = splitWhitespace text := by
    by_cases hshort : (splitWhitespace text).length < chunkSize
    · rw [splitTextIntoChunks_short text p hshort]
      refine ⟨by simp, ?_, ?_⟩
      · intro k c _ hk
        simp only [List.length_singleton] at hk
        omega
      · simp only [reassembleWords, chunkWords, htrim]
    · have hN : chunkSize ≤ (splitWhitespace text).length := by omega
      obtain ⟨hw, _⟩ := splitTextIntoChunks_long text p htrim hN
      have hpos : 0 < (splitWhitespace text).length := by rw [hsize] at hN; omega
      have hre := reassembleWords_chunkLoop (splitWhitespace text) p hw
        (splitWhitespace text).length 0 (by omega) hpos
      have hbranch : splitTextIntoChunks text p =
          chunkLoop (splitWhitespace text) p (splitWhitespace text).length 0 := by
        simp only [splitTextIntoChunks, if_neg hshort]
      rw [← hbranch, List.drop_zero] at hre
      refine ⟨?_, ?_, hre⟩
      · intro hnil
        rw [hnil] at hre
        have := congrArg List.length hre
        simp only [reassembleWords, List.length_nil] at this
        omega
      · intro k c hc hk
        obtain ⟨_, hlen, hcw⟩ := chunkWords_long text p htrim hN k c hc
        rw [hcw, List.length_take, List.length_drop]
        rw [hlen] at hk
        omega
  obtain ⟨hnonempty, hbig, hre⟩ := main
  refine ⟨hnonempty, ?_, hre, ?_, splitTextIntoChunks_page text p,
    splitWhitespace_trimmed hne htrim⟩
  · rw [hstep]; exact hbig
  · -- every word of the reassembled list comes from a chunk
    have hmem : ∀ (cs : List Chunk), ∀ w ∈ reassembleWords cs, ∃ c ∈ cs, w ∈ chunkWords c := by
      intro cs
      induction cs with
      | nil => intro w h; simp [reassembleWords] at h
      | cons c later ih =>
        intro w h
        cases later with
        | nil => exact ⟨c, by simp, by simpa [reassembleWords] using h⟩
        | cons d more =>
          simp only [reassembleWords, List.mem_append] at h
          rcases h with h | h
          · exact ⟨c, by simp, List.mem_of_mem_take h⟩
          · obtain ⟨c', hc', hw'⟩ := ih w h
            exact ⟨c', List.mem_cons_of_mem _ hc', hw'⟩
    intro w hw
    rw [← hre] at hw
    exact hmem _ w hw

/-- On a page of exactly 1000 words: two chunks, the first with more than 900 words. -/
theorem C14_chunking_loses_no_text_witness :
    trim thousandWords = thousandWords ∧ thousandWords ≠ [] ∧
    reassembleWords (splitTextIntoChunks thousandWords 6) = splitWhitespace thousandWords :=
  have h1 : trim thousandWords = thousandWords := by decide!
  have h2 : thousandWords ≠ [] := by decide!
  ⟨h1, h2, (C14_chunking_loses_no_text thousandWords 6 h1 h2).2.2.1⟩

/-! ## Properties of the relevance ranker -/

/-- What the `forEach` of `searchText` collects: the candidates in chunk order, each with its
position in the chunk sequence and its relevance. -/
theorem collectResults_spec (rt : Runtime) (query : JSString) :
    ∀ (chunks : List Chunk) (start : Nat) (results : List SearchResult),
      collectResults rt query chunks start = some results →
      results.map (fun r => r.chunk) = chunks.filter (isCandidate rt query) ∧
      results.Pairwise (fun a b => a.index < b.index) ∧
      ∀ r ∈ results, start ≤ r.index ∧ chunks[r.index - start]? = some r.chunk ∧
        calculateRelevance rt r.chunk.text query = some r.relevance := by
  intro chunks
  induction chunks with
  | nil =>
    intro start results h
    simp only [collectResults, Option.some.injEq] at h
    subst h
    simp
  | cons c later ih =>
    intro start results h
    simp only [collectResults] at h
    by_cases hcand : includes (rt.toLowerCase c.text) (rt.toLowerCase query) = true
    · rw [if_pos hcand] at h
      cases hrel : calculateRelevance rt c.text query with
      | none => rw [hrel] at h; cases h
      | some rel =>
        rw [hrel] at h
        cases hrest : collectResults rt query later (start + 1) with
        | none => rw [hrest] at h; cases h
        | some found =>
          rw [hrest] at h
          simp only [Option.some.injEq] at h
          subst h
          obtain ⟨hmap, hpair, hmem⟩ := ih _ _ hrest
          refine ⟨?_, ?_, ?_⟩
          · simp only [List.map_cons, hmap]
            rw [List.filter_cons_of_pos (by simpa [isCandidate] using hcand)]
          · rw [List.pairwise_cons]
            refine ⟨fun x hx => ?_, hpair⟩
            have := (hmem x hx).1
            simp only
            omega
          · intro r hr
            rcases List.mem_cons.mp hr with rfl | hr
            · simp [hrel]
            · obtain ⟨h1, h2, h3⟩ := hmem r hr
              refine ⟨by omega, ?_, h3⟩
              have hidx : r.index - start = (r.index - (start + 1)) + 1 := by omega
              rw [hidx, List.getElem?_cons_succ]
              exact h2
    · rw [if_neg hcand] at h
      obtain ⟨hmap, hpair, hmem⟩ := ih _ _ h
      refine ⟨?_, hpair, ?_⟩
      · rw [List.filter_cons_of_neg (by simpa [isCandidate] using hcand)]
        exact hmap
      · intro r hr
        obtain ⟨h1, h2, h3⟩ := hmem r hr
        refine ⟨by omega, ?_, h3⟩
        have hidx : r.index - start = (r.index - (start + 1)) + 1 := by omega
        rw [hidx, List.getElem?_cons_succ]
        exact h2

/-- The `forEach` of `searchText` ends without an error when the relevance of every
candidate can be computed. -/
theorem collectResults_total (rt : Runtime) (query : JSString) :
    ∀ (chunks : List Chunk),
      (∀ c ∈ chunks, isCandidate rt query c = true →
        ∃ rel, calculateRelevance rt c.text query = some rel) →
      ∀ start, ∃ results, collectResults rt query chunks start = some results := by
  intro chunks
  induction chunks with
  | nil => intro _ start; exact ⟨[], rfl⟩
  | cons c later ih =>
    intro hall start
    obtain ⟨found, hfound⟩ :=
      ih (fun x hx hc => hall x (List.mem_cons_of_mem _ hx) hc) (start + 1)
    simp only [collectResults]
    by_cases hcand : includes (rt.toLowerCase c.text) (rt.toLowerCase query) = true
    · obtain ⟨rel, hrel⟩ := hall c (List.mem_cons_self _ _) (by simpa [isCandidate] using hcand)
      rw [if_pos hcand, hrel, hfound]
      exact ⟨_, rfl⟩
    · rw [if_neg hcand, hfound]
      exact ⟨_, rfl⟩

/-- Every string includes the empty string. -/
theorem includes_nil : ∀ s : JSString, includes s [] = true := by
  intro s
  cases s with
  | nil => rfl
  | cons c cs => simp [includes]

/-- C12, at a failing input: the query `(` is handed to `new RegExp` unescaped, so in every
runtime in which `new RegExp('(', 'gi')` throws, `calculateRelevance(text, '(')` raises for
every text instead of returning a score. -/
theorem C12_unescaped_pattern_raises (rt : Runtime) (text : JSString)
    (hlow : rt.toLowerCase ['('] = ['('])
    (hthrow : rt.matchCount ['('] (rt.toLowerCase text) = none) :
    calculateRelevance rt text ['('] = none := by
  have hsplit : splitWhitespace ['('] = [['(']] := by decide
  simp only [calculateRelevance, hlow, hsplit, scoreWords, hthrow]

/-- The text `f(x)` includes the query `(`, and computing its relevance raises. -/
theorem C12_unescaped_pattern_raises_witness :
    isCandidate asciiRuntime ['('] { text := "f(x)".toList, page := 6 } = true ∧
    calculateRelevance asciiRuntime "f(x)".toList ['('] = none ∧
    searchText asciiRuntime [{ text := "f(x)".toList, page := 6 }] ['('] = none :=
  ⟨by decide, C12_unescaped_pattern_raises asciiRuntime "f(x)".toList (by decide) (by decide),
    by decide⟩

/-- A leading space in the query leaves an empty query word, which as a pattern matches at
every position of the text: for the text `the cat sat` the score of the query ` cat` is
`10 * 12` above that of `cat`. -/
theorem calculateRelevance_leading_space :
    splitWhitespace " cat".toList = [[], "cat".toList] ∧
    calculateRelevance asciiRuntime "the cat sat".toList "cat".toList = some (1011 / 100) ∧
    calculateRelevance asciiRuntime "the cat sat".toList " cat".toList = some (13011 / 100) := by
  decide!

/-- C13, as stated, fails: with the empty query every chunk is a candidate, and for the three
chunks of the ranking example `searchText` returns all three. -/
theorem C13_empty_query_returns_chunks :
    (searchText asciiRuntime catIndex.textChunks []).map
        (fun found => found.map (fun r => r.chunk)) =
      some [{ text := "the cat sat on the mat".toList, page := 7 },
            { text := "the cat sat".toList, page := 6 },
            { text := "dog".toList, page := 8 }] ∧
    searchText asciiRuntime catIndex.textChunks [] ≠ some [] := by
  decide!

/-- C13, amended: in a runtime in which the empty pattern is valid, `searchText` called with
the empty query does not raise; every chunk is a candidate, so the result has
`min(5, n)` entries for `n` chunks, all of them chunks of the sequence, and it is empty
exactly when the chunk sequence is empty. -/
theorem C13_empty_query (rt : Runtime) (chunks : List Chunk)
    (hlow : rt.toLowerCase [] = [])
    (hmatch : ∀ s, ∃ n, rt.matchCount [] s = some n) :
    ∃ found, searchText rt chunks [] = some found ∧
      (∀ c ∈ chunks, isCandidate rt [] c = true) ∧
      found.length = min 5 chunks.length ∧
      (found = [] ↔ chunks = []) ∧
      ∀ r ∈ found, r.chunk ∈ chunks := by
  have hcand : ∀ c ∈ chunks, isCandidate rt [] c = true := by
    intro c _
    simp only [isCandidate, hlow, includes_nil]
  have hrel : ∀ c ∈ chunks, isCandidate rt [] c = true →
      ∃ rel, calculateRelevance rt c.text [] = some rel := by
    intro c _ _
    obtain ⟨n, hn⟩ := hmatch (rt.toLowerCase c.text)
    have hsplit : splitWhitespace ([] : JSString) = [[]] := rfl
    exact ⟨((0 + n * 10 : Nat) : ℚ) + min ((jsLength c.text : ℚ) / 100) 50,
      by simp only [calculateRelevance, hlow, hsplit, scoreWords, hn]⟩
  obtain ⟨results, hres⟩ := collectResults_total rt [] chunks hrel 0
  obtain ⟨hmap, _, _⟩ := collectResults_spec rt [] chunks 0 results hres
  have hall : chunks.filter (isCandidate rt []) = chunks :=
    List.filter_eq_self.mpr hcand
  rw [hall] at hmap
  have hperm : (sortByRelevance results).Perm results := List.perm_insertionSort _ results
  have hcount : results.length = chunks.length := by
    rw [← hmap, List.length_map]
  have hlen : ((sortByRelevance results).take 5).length = min 5 chunks.length := by
    rw [List.length_take, hperm.length_eq, hcount]
  refine ⟨(sortByRelevance results).take 5, ?_, hcand, hlen, ?_, ?_⟩
  · simp only [searchText, hres, slice, List.drop_zero]
  · rw [← List.length_eq_zero, hlen, ← List.length_eq_zero (l := chunks)]
    omega
  · intro r hr
    have hr' : r ∈ results := hperm.mem_iff.mp (List.mem_of_mem_take hr)
    rw [← hmap]
    exact List.mem_map.mpr ⟨r, hr', rfl⟩

/-- The empty query on the three chunks of the ranking example: three entries come back. -/
theorem C13_empty_query_witness :
    ∃ found, searchText asciiRuntime catIndex.textChunks [] = some found ∧
      found.length = min 5 catIndex.textChunks.length :=
  have h := C13_empty_query asciiRuntime catIndex.textChunks rfl
    (fun s => ⟨jsLength s + 1, rfl⟩)
  h.elim fun found hf => ⟨found, hf.1, hf.2.2.1⟩

end PdfQa
